import Mathlib

/-!
Verification of the task-store logic of `todo.c` (a command-line to-do list
manager).  The linked list of tasks is modelled as a Lean `List`, the file
on disk as a `List Char` (absent file: `Option`).  Every definition below is
a direct transcription of a C function of the source; the comments name the
function (and the lines of `main` for the input path).
-/

set_option maxRecDepth 10000

namespace Todo

/-- MAX_TASK_LEN from todo.c: the size of the description buffer. -/
def MAX_TASK_LEN : Nat := 256

/-- One task.  The C struct Task stores a NUL-terminated description of at
most MAX_TASK_LEN - 1 = 255 bytes and an int completed flag that the program
only ever sets to 0 or 1, so it is modelled as a Bool. -/
structure Task where
  description : List Char
  completed : Bool
deriving DecidableEq

/-- createTask (todo.c lines 169-189): strncpy copies at most
MAX_TASK_LEN - 1 characters of the argument and NUL-terminates; the
completed flag starts at 0. -/
def createTask (description : List Char) : Task :=
  { description := description.take (MAX_TASK_LEN - 1), completed := false }

/-- addTask (todo.c lines 198-215): append a freshly created task at the end
of the list, traversing to the last node when the list is non-empty. -/
def addTask (head : List Task) (description : List Char) : List Task :=
  match head with
  | [] => [createTask description]
  | t :: rest => t :: addTask rest description

/-- The add path of main (todo.c lines 87-92): the description is read with
fgets and cut at its first newline (strcspn) before addTask runs.  This is
the `add` operation of the specification (trailing newline stripped). -/
def addTaskInput (head : List Task) (input : List Char) : List Task :=
  addTask head (input.takeWhile (fun c => c != '\n'))

/-- markComplete (todo.c lines 249-266).  The loop walks the list while
`current != NULL && count < index`; the Bool of the result records whether a
node was marked (the function prints "not found" exactly when it is false). -/
def markCompleteGo (l : List Task) (count index : Int) : List Task × Bool :=
  match l with
  | [] => ([], false)
  | t :: rest =>
    if count < index then
      let r := markCompleteGo rest (count + 1) index
      (t :: r.1, r.2)
    else
      ({ t with completed := true } :: rest, true)

/-- markComplete starts its traversal at the head with count = 1. -/
def markComplete (head : List Task) (index : Int) : List Task × Bool :=
  markCompleteGo head 1 index

/-- The three observable outcomes of deleteTask: a node was removed, the
"Task %d not found" error, or the "List is empty" error. -/
inductive DeleteResult where
  | deleted
  | notFound
  | emptyList
deriving DecidableEq

/-- The traversal of deleteTask (todo.c lines 292-311): walk while
`current != NULL && count < index - 1`; then the node after `current` is
unlinked, and `none` is the "not found" outcome. -/
def deleteTaskGo (l : List Task) (count index : Int) : Option (List Task) :=
  match l with
  | [] => none
  | t :: rest =>
    if count < index - 1 then
      (deleteTaskGo rest (count + 1) index).map (fun r => t :: r)
    else
      match rest with
      | [] => none
      | _ :: rest2 => some (t :: rest2)

/-- deleteTask (todo.c lines 274-313): empty list and index == 1 are handled
before the traversal, which starts at the head with count = 1. -/
def deleteTask (head : List Task) (index : Int) : List Task × DeleteResult :=
  match head with
  | [] => ([], DeleteResult.emptyList)
  | t :: rest =>
    if index = 1 then (rest, DeleteResult.deleted)
    else
      match deleteTaskGo (t :: rest) 1 index with
      | none => (t :: rest, DeleteResult.notFound)
      | some l => (l, DeleteResult.deleted)

/-- One output line of saveTasks: fprintf(file, "%d,%s\n", completed,
description), with completed equal to 0 or 1. -/
def serializeTask (t : Task) : List Char :=
  (if t.completed then '1' else '0') :: ',' :: (t.description ++ ['\n'])

/-- saveTasks (todo.c lines 337-357): the whole list is written to the file
in order, one line per task. -/
def saveTasks (head : List Task) : List Char :=
  (head.map serializeTask).flatten

/-- The characters the C isspace accepts (the whitespace sscanf's %d skips):
space, tab, newline, vertical tab, form feed, carriage return. -/
def isSpaceC (c : Char) : Bool :=
  c == ' ' || c == '\t' || c == '\n' || c == '\x0b' || c == '\x0c' || c == '\r'

/-- Value of a digit string, most significant digit first. -/
def digitsToNat (ds : List Char) : Nat :=
  ds.foldl (fun acc c => acc * 10 + (c.toNat - '0'.toNat)) 0

/-- The digit run of %d: at least one decimal digit, read greedily. -/
def parseDigits (l : List Char) : Option (Nat × List Char) :=
  if (l.takeWhile Char.isDigit).isEmpty then none
  else some (digitsToNat (l.takeWhile Char.isDigit), l.dropWhile Char.isDigit)

/-- sscanf's %d conversion: skip whitespace, then an optional sign followed
by at least one digit. -/
def scanInt (l : List Char) : Option (Int × List Char) :=
  match l.dropWhile isSpaceC with
  | [] => none
  | c :: rest =>
    if c = '-' then (parseDigits rest).map (fun p => (-(p.1 : Int), p.2))
    else if c = '+' then (parseDigits rest).map (fun p => ((p.1 : Int), p.2))
    else (parseDigits (c :: rest)).map (fun p => ((p.1 : Int), p.2))

/-- sscanf(lineBuffer, "%d,%[^\n]", &completed, description) == 2
(todo.c line 380): an integer, then a literal comma, then at least one
character other than newline (%[^\n] is greedy up to the newline or the end
of the string). -/
def sscanfLine (line : List Char) : Option (Int × List Char) :=
  match scanInt line with
  | none => none
  | some (n, rest) =>
    match rest with
    | ',' :: rest2 =>
      if (rest2.takeWhile (fun c => c != '\n')).isEmpty then none
      else some (n, rest2.takeWhile (fun c => c != '\n'))
    | _ => none

/-- One fgets call on buffer size n + 1 (todo.c line 377 uses
sizeof lineBuffer = MAX_TASK_LEN + 10, so n = MAX_TASK_LEN + 9 characters
are read at most): take characters up to and including the first newline,
or until n characters or the end of the file. -/
def fgetsTake : Nat → List Char → List Char × List Char
  | _, [] => ([], [])
  | 0, rest => ([], rest)
  | n + 1, c :: rest =>
    if c == '\n' then ([c], rest)
    else
      let p := fgetsTake n rest
      (c :: p.1, p.2)

/-- The fgets read loop of loadTasks, split into the chunks successive fgets
calls return.  Each call consumes at least one character, so the length of
the content is enough fuel. -/
def fgetsChunksGo : Nat → List Char → List (List Char)
  | 0, _ => []
  | _, [] => []
  | fuel + 1, c :: rest =>
    let p := fgetsTake (MAX_TASK_LEN + 9) (c :: rest)
    p.1 :: fgetsChunksGo fuel p.2

/-- All chunks fgets returns for a given file content. -/
def fgetsChunks (content : List Char) : List (List Char) :=
  fgetsChunksGo content.length content

/-- The completed-fixup loop of loadTasks (todo.c lines 387-395): walk to
the last node and set its flag.  loadTasks only runs it right after addTask,
so the list is never empty there. -/
def markLastComplete : List Task → List Task
  | [] => []
  | [t] => [{ t with completed := true }]
  | t :: rest => t :: markLastComplete rest

/-- The body of the loadTasks read loop for one fgets chunk (todo.c lines
377-396): on a parse of both fields, addTask the description and, when the
parsed integer is nonzero, mark the appended node; otherwise the chunk is
skipped. -/
def loadLine (head : List Task) (chunk : List Char) : List Task :=
  match sscanfLine chunk with
  | none => head
  | some (completed, description) =>
    let h := addTask head description
    if completed ≠ 0 then markLastComplete h else h

/-- loadTasks (todo.c lines 363-401).  `none` models fopen returning NULL
(no save file): the function prints a notice and returns with the list
untouched -- there is no error outcome.  Otherwise every fgets chunk is fed
to the sscanf parse and the list grows by the tasks that parse. -/
def loadTasks (head : List Task) (file : Option (List Char)) : List Task :=
  match file with
  | none => head
  | some content => (fgetsChunks content).foldl loadLine head

/-- The task a chunk contributes to the list, if it parses: description
truncated by createTask, completed iff the parsed integer is nonzero. -/
def chunkTask (chunk : List Char) : Option Task :=
  (sscanfLine chunk).map
    (fun p => { description := p.2.take (MAX_TASK_LEN - 1), completed := decide (p.1 ≠ (0 : Int)) })

/-- The stores reachable from the empty store by the add / markComplete /
delete operations (add as the specification defines it: the input path of
main, newline-stripped). -/
inductive Reachable : List Task → Prop
  | empty : Reachable []
  | add (s : List Task) (d : List Char) : Reachable s → Reachable (addTaskInput s d)
  | mark (s : List Task) (i : Int) : Reachable s → Reachable (markComplete s i).1
  | del (s : List Task) (i : Int) : Reachable s → Reachable (deleteTask s i).1

/-- The description invariant of the data model: at most MAX_TASK_LEN - 1
characters and no embedded newline. -/
def descInv (t : Task) : Prop :=
  t.description.length ≤ MAX_TASK_LEN - 1 ∧ '\n' ∉ t.description

instance (t : Task) : Decidable (descInv t) := by
  unfold descInv
  infer_instance

/-- A file line as loadTasks will see it in one piece: newline-terminated,
no interior newline, and short enough for the fgets buffer. -/
def goodLine (l : List Char) : Prop :=
  l.length ≤ MAX_TASK_LEN + 9 ∧ '\n' ∉ l.dropLast ∧ l.getLast? = some '\n'

instance (l : List Char) : Decidable (goodLine l) := by
  unfold goodLine
  infer_instance

/-- The amended acceptance statement for the load parse, written from the
claim's words (with the whitespace skip the counterexample forces): the
line is optional whitespace, then an optionally signed run of decimal
digits, immediately a comma, then at least one character before the first
newline; the parsed value is the signed value of the digit run.  This
definition follows the specification sentence and is compared with the
code's sscanfLine. -/
def specWellFormedLine (line : List Char) (n : Int) (d : List Char) : Prop :=
  ∃ ws sgn ds rest,
    line = ws ++ sgn ++ ds ++ ',' :: rest ∧
    (∀ c ∈ ws, isSpaceC c = true) ∧
    (sgn = [] ∨ sgn = ['-'] ∨ sgn = ['+']) ∧
    ds ≠ [] ∧ (∀ c ∈ ds, c.isDigit = true) ∧
    d = rest.takeWhile (fun c => c != '\n') ∧ d ≠ [] ∧
    n = (if sgn = ['-'] then -(digitsToNat ds : Int) else (digitsToNat ds : Int))

/-! ### Basic lemmas about the list operations -/

/-- addTask appends the created task at the end of the list. -/
theorem addTask_eq_append (s : List Task) (d : List Char) :
    addTask s d = s ++ [createTask d] := by
  induction s with
  | nil => rfl
  | cons t rest ih => simp [addTask, ih]

/-- The completed-fixup traversal of loadTasks marks exactly the last node. -/
theorem markLastComplete_append (s : List Task) (t : Task) :
    markLastComplete (s ++ [t]) = s ++ [{ t with completed := true }] := by
  induction s with
  | nil => rfl
  | cons a s ih =>
    cases s with
    | nil => rfl
    | cons b s => simpa [markLastComplete] using ih

/-- Processing one fgets chunk appends the task it contributes, if any. -/
theorem loadLine_eq (head : List Task) (chunk : List Char) :
    loadLine head chunk = head ++ (chunkTask chunk).toList := by
  unfold loadLine chunkTask
  cases h : sscanfLine chunk with
  | none => simp
  | some p =>
    obtain ⟨n, d⟩ := p
    by_cases hn : n = 0
    · simp [hn, addTask_eq_append, createTask]
    · simp [hn, addTask_eq_append, createTask, markLastComplete_append]

/-- The read loop of loadTasks appends the parsed tasks in chunk order. -/
theorem foldl_loadLine_eq (chunks : List (List Char)) (head : List Task) :
    chunks.foldl loadLine head = head ++ chunks.filterMap chunkTask := by
  induction chunks generalizing head with
  | nil => simp
  | cons c cs ih =>
    rw [List.foldl_cons, ih, loadLine_eq, List.filterMap_cons]
    cases h : chunkTask c <;> simp [h]

/-- loadTasks on an existing file: the old list followed by the task of each
chunk that parses, in file order. -/
theorem loadTasks_some_eq (head : List Task) (content : List Char) :
    loadTasks head (some content) = head ++ (fgetsChunks content).filterMap chunkTask := by
  unfold loadTasks
  exact foldl_loadLine_eq _ _

/-! ### Lemmas about the fgets read loop -/

/-- fgets returns a whole newline-terminated line that fits in the buffer,
leaving the rest of the content unread. -/
theorem fgetsTake_line (n : Nat) (xs rest : List Char)
    (hlen : xs.length < n) (hnl : '\n' ∉ xs) :
    fgetsTake n (xs ++ '\n' :: rest) = (xs ++ ['\n'], rest) := by
  induction xs generalizing n with
  | nil =>
    match n, hlen with
    | n + 1, _ => simp [fgetsTake]
  | cons c xs ih =>
    match n, hlen with
    | n + 1, hlen =>
      have hc : c ≠ '\n' := fun h => hnl (h ▸ List.mem_cons_self c xs)
      have hlen' : xs.length < n := by simpa using hlen
      have hnl' : '\n' ∉ xs := fun h => hnl (List.mem_cons_of_mem c h)
      simp [fgetsTake, hc, ih n hlen' hnl']

/-- fgets never hands back more than it was given. -/
theorem fgetsTake_snd_le (n : Nat) (l : List Char) :
    (fgetsTake n l).2.length ≤ l.length := by
  induction n generalizing l with
  | zero => cases l <;> simp [fgetsTake]
  | succ n ih =>
    cases l with
    | nil => simp [fgetsTake]
    | cons c rest =>
      by_cases hc : c == '\n'
      · simp [fgetsTake, hc]
      · simp only [fgetsTake, hc, Bool.false_eq_true, if_false]
        exact le_trans (ih rest) (Nat.le_succ _)

/-- On a non-empty content, fgets consumes at least one character. -/
theorem fgetsTake_snd_lt (n : Nat) (c : Char) (rest : List Char) :
    (fgetsTake (n + 1) (c :: rest)).2.length < rest.length + 1 := by
  by_cases hc : c == '\n'
  · simp [fgetsTake, hc]
  · simp only [fgetsTake, hc, Bool.false_eq_true, if_false]
    exact Nat.lt_succ_of_le (fgetsTake_snd_le n rest)

/-- Any fuel at least the length of the content gives the same chunks. -/
theorem fgetsChunksGo_fuel (f1 f2 : Nat) (l : List Char)
    (h1 : l.length ≤ f1) (h2 : l.length ≤ f2) :
    fgetsChunksGo f1 l = fgetsChunksGo f2 l := by
  induction f1 generalizing f2 l with
  | zero =>
    have : l = [] := List.length_eq_zero.mp (Nat.le_zero.mp h1)
    subst this
    cases f2 <;> rfl
  | succ f1 ih =>
    cases l with
    | nil => cases f2 <;> rfl
    | cons c rest =>
      match f2, h2 with
      | f2 + 1, h2 =>
        show (fgetsTake (MAX_TASK_LEN + 9) (c :: rest)).1 ::
              fgetsChunksGo f1 (fgetsTake (MAX_TASK_LEN + 9) (c :: rest)).2
            = (fgetsTake (MAX_TASK_LEN + 9) (c :: rest)).1 ::
              fgetsChunksGo f2 (fgetsTake (MAX_TASK_LEN + 9) (c :: rest)).2
        have hlt := fgetsTake_snd_lt (MAX_TASK_LEN + 8) c rest
        have hle : (fgetsTake (MAX_TASK_LEN + 9) (c :: rest)).2.length ≤ rest.length := by
          exact Nat.lt_succ_iff.mp hlt
        congr 1
        exact ih f2 _ (le_trans hle (by simpa using h1))
          (le_trans hle (by simpa using h2))

/-- A short newline-terminated line is returned by fgets as one chunk. -/
theorem fgetsChunks_cons_line (xs rest : List Char)
    (hlen : xs.length ≤ MAX_TASK_LEN + 8) (hnl : '\n' ∉ xs) :
    fgetsChunks ((xs ++ ['\n']) ++ rest) = (xs ++ ['\n']) :: fgetsChunks rest := by
  have hassoc : (xs ++ ['\n']) ++ rest = xs ++ '\n' :: rest := by simp
  have htake : fgetsTake (MAX_TASK_LEN + 9) (xs ++ '\n' :: rest) = (xs ++ ['\n'], rest) :=
    fgetsTake_line _ xs rest (Nat.lt_succ_of_le hlen) hnl
  rw [hassoc]
  cases hx : xs ++ '\n' :: rest with
  | nil => exact absurd hx (by simp)
  | cons c t =>
    show (fgetsTake (MAX_TASK_LEN + 9) (c :: t)).1 ::
          fgetsChunksGo t.length (fgetsTake (MAX_TASK_LEN + 9) (c :: t)).2
        = (xs ++ ['\n']) :: fgetsChunks rest
    have hrest : rest.length ≤ t.length := by
      have h1 : (xs ++ '\n' :: rest).length = xs.length + rest.length + 1 := by
        simp
        omega
      have h2 : (xs ++ '\n' :: rest).length = t.length + 1 := by rw [hx]; rfl
      omega
    rw [← hx, htake]
    rw [fgetsChunksGo_fuel t.length rest.length rest hrest (le_refl _)]
    rfl

/-- A good line decomposes as its interior followed by the newline. -/
theorem goodLine_decomp (l : List Char) (h : goodLine l) :
    l = l.dropLast ++ ['\n'] ∧ l.dropLast.length ≤ MAX_TASK_LEN + 8 ∧
      '\n' ∉ l.dropLast := by
  obtain ⟨hlen, hnl, hlast⟩ := h
  induction l using List.reverseRecOn with
  | nil => simp at hlast
  | append_singleton xs x _ =>
    have hx : x = '\n' := by simpa using hlast
    subst hx
    refine ⟨by simp, ?_, by simpa using hnl⟩
    have : xs.length + 1 ≤ MAX_TASK_LEN + 9 := by simpa using hlen
    simpa using Nat.lt_succ_iff.mp (Nat.lt_succ_of_le (Nat.lt_succ_iff.mp this))

/-- fgets splits a file made of good lines back into exactly those lines. -/
theorem fgetsChunks_flatten (lines : List (List Char))
    (h : ∀ l ∈ lines, goodLine l) :
    fgetsChunks lines.flatten = lines := by
  induction lines with
  | nil => rfl
  | cons l ls ih =>
    obtain ⟨hdec, hlen, hnl⟩ := goodLine_decomp l (h l (List.mem_cons_self l ls))
    have : l :: ls = (l.dropLast ++ ['\n']) :: ls := by rw [← hdec]
    rw [this, List.flatten_cons,
      fgetsChunks_cons_line l.dropLast ls.flatten hlen hnl, ← hdec,
      ih (fun x hx => h x (List.mem_cons_of_mem l hx))]

/-! ### Lemmas about the sscanf parse and the save format -/

/-- Characters kept by the %[^\n] conversion are not the newline. -/
theorem ne_of_mem_takeWhile_bne (l : List Char) (c : Char)
    (h : c ∈ l.takeWhile (fun x => x != '\n')) : c ≠ '\n' := by
  induction l with
  | nil => simp at h
  | cons a t ih =>
    rw [List.takeWhile_cons] at h
    by_cases ha : (a != '\n') = true
    · rw [if_pos ha] at h
      rcases List.mem_cons.mp h with h | h
      · exact h ▸ bne_iff_ne.mp ha
      · exact ih h
    · rw [if_neg ha] at h
      simp at h

/-- %[^\n] reads exactly the characters before the first newline. -/
theorem takeWhile_bne_append (xs r : List Char) (h : '\n' ∉ xs) :
    (xs ++ '\n' :: r).takeWhile (fun c => c != '\n') = xs := by
  induction xs with
  | nil => simp
  | cons a t ih =>
    have ha : a ≠ '\n' := fun hc => h (hc ▸ List.mem_cons_self a t)
    have ht : '\n' ∉ t := fun hc => h (List.mem_cons_of_mem a hc)
    rw [List.cons_append, List.takeWhile_cons, if_pos (bne_iff_ne.mpr ha), ih ht]

/-- %d on a saved line reads the single status digit. -/
theorem scanInt_serialize (t : Task) :
    scanInt (serializeTask t)
      = some ((if t.completed then 1 else 0 : Int), ',' :: (t.description ++ ['\n'])) := by
  obtain ⟨d, c⟩ := t
  cases c <;> rfl

/-- The full parse of a saved line whose description is non-empty and
newline-free recovers the status value and the description. -/
theorem sscanfLine_serialize (t : Task) (hnl : '\n' ∉ t.description)
    (hne : t.description ≠ []) :
    sscanfLine (serializeTask t)
      = some ((if t.completed then 1 else 0 : Int), t.description) := by
  have hd : (t.description ++ ['\n']).takeWhile (fun c => c != '\n') = t.description := by
    simpa using takeWhile_bne_append t.description [] hnl
  have hne2 : t.description.isEmpty = false := by
    cases h : t.description with
    | nil => exact absurd h hne
    | cons a b => rfl
  unfold sscanfLine
  rw [scanInt_serialize]
  simp only [hd, hne2, Bool.false_eq_true, if_false]

/-- A saved task with non-empty description is reloaded unchanged. -/
theorem chunkTask_serialize (t : Task) (hinv : descInv t)
    (hne : t.description ≠ []) :
    chunkTask (serializeTask t) = some t := by
  obtain ⟨d, c⟩ := t
  unfold chunkTask
  rw [sscanfLine_serialize ⟨d, c⟩ hinv.2 hne]
  have htake : d.take (MAX_TASK_LEN - 1) = d :=
    List.take_of_length_le hinv.1
  cases c <;> simp [htake]

/-- A saved line of a task satisfying the description invariant is a good
line for the fgets loop. -/
theorem serializeTask_goodLine (t : Task) (h : descInv t) :
    goodLine (serializeTask t) := by
  obtain ⟨d, c⟩ := t
  obtain ⟨hlen, hnl⟩ := h
  have hlen' : d.length ≤ 255 := by simpa [MAX_TASK_LEN] using hlen
  have he : serializeTask ⟨d, c⟩ = ((if c then '1' else '0') :: ',' :: d) ++ ['\n'] := by
    simp [serializeTask]
  refine ⟨?_, ?_, ?_⟩
  · rw [he]
    simp only [List.length_append, List.length_cons, List.length_nil, MAX_TASK_LEN]
    omega
  · rw [he, List.dropLast_concat]
    intro hmem
    rcases List.mem_cons.mp hmem with h1 | hmem
    · cases c <;> exact absurd h1 (by decide)
    · rcases List.mem_cons.mp hmem with h1 | hmem
      · exact absurd h1 (by decide)
      · exact hnl hmem
  · rw [he, List.getLast?_concat]

/-- The whole save file of an invariant-respecting store parses back to the
same store, task by task. -/
theorem filterMap_serialize (s : List Task)
    (h : ∀ t ∈ s, descInv t ∧ t.description ≠ []) :
    (s.map serializeTask).filterMap chunkTask = s := by
  induction s with
  | nil => rfl
  | cons t rest ih =>
    obtain ⟨hinv, hne⟩ := h t (List.mem_cons_self t rest)
    rw [List.map_cons, List.filterMap_cons, chunkTask_serialize t hinv hne,
      ih (fun x hx => h x (List.mem_cons_of_mem t hx))]

/-- Save followed by load into a fresh store is the identity, provided every
description respects the invariant and is non-empty. -/
theorem saveLoad_of_inv (s : List Task)
    (h : ∀ t ∈ s, descInv t ∧ t.description ≠ []) :
    loadTasks [] (some (saveTasks s)) = s := by
  rw [loadTasks_some_eq]
  unfold saveTasks
  rw [fgetsChunks_flatten (s.map serializeTask) ?_]
  · exact filterMap_serialize s h
  · intro l hl
    obtain ⟨t, ht, rfl⟩ := List.mem_map.mp hl
    exact serializeTask_goodLine t (h t ht).1

/-! ### Structural lemmas for markComplete and deleteTask -/

/-- Every task of the list markComplete returns carries the description of
a task of the original list. -/
theorem markCompleteGo_desc (l : List Task) (c i : Int) (x : Task)
    (h : x ∈ (markCompleteGo l c i).1) :
    ∃ t ∈ l, x.description = t.description := by
  induction l generalizing c with
  | nil => simp [markCompleteGo] at h
  | cons t rest ih =>
    by_cases hc : c < i
    · simp only [markCompleteGo, if_pos hc] at h
      rcases List.mem_cons.mp h with h | h
      · exact ⟨t, List.mem_cons_self t rest, by rw [h]⟩
      · obtain ⟨u, hu, he⟩ := ih (c + 1) h
        exact ⟨u, List.mem_cons_of_mem t hu, he⟩
    · simp only [markCompleteGo, if_neg hc] at h
      rcases List.mem_cons.mp h with h | h
      · exact ⟨t, List.mem_cons_self t rest, by rw [h]⟩
      · exact ⟨x, List.mem_cons_of_mem t h, rfl⟩

/-- The deleteTask traversal only ever returns tasks of the original list. -/
theorem deleteTaskGo_mem (l : List Task) (c i : Int) (r : List Task)
    (h : deleteTaskGo l c i = some r) (x : Task) (hx : x ∈ r) : x ∈ l := by
  induction l generalizing c r with
  | nil => exact Option.noConfusion h
  | cons t rest ih =>
    by_cases hc : c < i - 1
    · simp only [deleteTaskGo, if_pos hc] at h
      cases hgo : deleteTaskGo rest (c + 1) i with
      | none => rw [hgo] at h; simp at h
      | some r2 =>
        rw [hgo] at h
        simp at h
        subst h
        rcases List.mem_cons.mp hx with hx | hx
        · exact hx ▸ List.mem_cons_self t rest
        · exact List.mem_cons_of_mem t (ih (c + 1) r2 hgo hx)
    · simp only [deleteTaskGo, if_neg hc] at h
      cases rest with
      | nil => simp at h
      | cons u rest2 =>
        simp at h
        subst h
        rcases List.mem_cons.mp hx with hx | hx
        · exact hx ▸ List.mem_cons_self t _
        · exact List.mem_cons_of_mem t (List.mem_cons_of_mem u hx)

/-- deleteTask never invents tasks: the resulting list is made of tasks of
the original list. -/
theorem deleteTask_mem (s : List Task) (i : Int) (x : Task)
    (hx : x ∈ (deleteTask s i).1) : x ∈ s := by
  cases s with
  | nil => simp [deleteTask] at hx
  | cons t rest =>
    by_cases hi : i = 1
    · simp only [deleteTask, if_pos hi] at hx
      exact List.mem_cons_of_mem t hx
    · simp only [deleteTask, if_neg hi] at hx
      cases hgo : deleteTaskGo (t :: rest) 1 i with
      | none => rw [hgo] at hx; exact hx
      | some r =>
        rw [hgo] at hx
        exact deleteTaskGo_mem _ _ _ _ hgo x hx

/-- What a successful sscanf parse says about the description field: it is
non-empty and contains no newline. -/
theorem sscanfLine_shape (line : List Char) (n : Int) (d : List Char)
    (h : sscanfLine line = some (n, d)) : '\n' ∉ d ∧ d ≠ [] := by
  unfold sscanfLine at h
  split at h
  · exact absurd h (by simp)
  · split at h
    · rename_i rest2 heq2
      by_cases he : (List.takeWhile (fun c => c != '\n') rest2).isEmpty
      · rw [if_pos he] at h
        exact absurd h (by simp)
      · rw [if_neg he] at h
        simp only [Option.some.injEq, Prod.mk.injEq] at h
        obtain ⟨hn, hd⟩ := h
        constructor
        · intro hmem
          rw [← hd] at hmem
          exact ne_of_mem_takeWhile_bne _ _ hmem rfl
        · intro hnil
          rw [← hd] at hnil
          exact he (by simp [hnil])
    · exact absurd h (by simp)

/-- A task produced by the load parse satisfies the description invariant. -/
theorem chunkTask_descInv (chunk : List Char) (x : Task)
    (h : chunkTask chunk = some x) : descInv x := by
  unfold chunkTask at h
  cases hs : sscanfLine chunk with
  | none => rw [hs] at h; simp at h
  | some p =>
    obtain ⟨n, d⟩ := p
    rw [hs] at h
    simp at h
    obtain ⟨hnl, -⟩ := sscanfLine_shape chunk n d hs
    subst h
    exact ⟨List.length_take_le _ _, fun hmem => hnl (List.take_subset _ _ hmem)⟩

/-- A task built by the add path of main satisfies the description
invariant: the input is cut at its first newline and truncated. -/
theorem createTask_stripped_descInv (input : List Char) :
    descInv (createTask (input.takeWhile (fun c => c != '\n'))) := by
  constructor
  · exact List.length_take_le _ _
  · intro hmem
    exact ne_of_mem_takeWhile_bne input '\n' (List.take_subset _ _ hmem) rfl

/-- Every reachable store satisfies the description invariant. -/
theorem reachable_descInv (s : List Task) (h : Reachable s) :
    ∀ t ∈ s, descInv t := by
  induction h with
  | empty => intro t ht; exact absurd ht (List.not_mem_nil t)
  | add s d _ ih =>
    intro t ht
    rw [addTaskInput, addTask_eq_append] at ht
    rcases List.mem_append.mp ht with ht | ht
    · exact ih t ht
    · rw [List.mem_singleton.mp ht]
      exact createTask_stripped_descInv d
  | mark s i _ ih =>
    intro t ht
    obtain ⟨u, hu, he⟩ := markCompleteGo_desc s 1 i t ht
    obtain ⟨h1, h2⟩ := ih u hu
    exact ⟨he ▸ h1, he ▸ h2⟩
  | del s i _ ih =>
    intro t ht
    exact ih t (deleteTask_mem s i t ht)

/-! ### Closed form of deleteTask on valid indices -/

/-- The deleteTask traversal with k steps left to walk removes the node at
0-based position k + 1, if it exists. -/
theorem deleteTaskGo_pos (k : Nat) (l : List Task) (c i : Int)
    (hk : i - 1 - c = (k : Int)) :
    deleteTaskGo l c i =
      if k + 1 < l.length then some (l.take (k + 1) ++ l.drop (k + 2)) else none := by
  induction l generalizing c k with
  | nil => simp [deleteTaskGo]
  | cons t rest ih =>
    by_cases hc : c < i - 1
    · obtain ⟨k', rfl⟩ : ∃ k', k = k' + 1 := ⟨k - 1, by omega⟩
      simp only [deleteTaskGo, if_pos hc]
      rw [ih k' (c + 1) (by omega)]
      by_cases hlt : k' + 1 < rest.length
      · rw [if_pos hlt, if_pos (by simpa using Nat.succ_lt_succ hlt)]
        simp [List.take_succ_cons, List.drop_succ_cons]
      · rw [if_neg hlt, if_neg (by simp; omega)]
        simp
    · have hk0 : k = 0 := by omega
      subst hk0
      simp only [deleteTaskGo, if_neg hc]
      cases rest with
      | nil => simp
      | cons u rest2 =>
        rw [if_pos (by simp)]
        rfl

/-- On a valid index, deleteTask removes exactly the task at 1-based
position i and reports success. -/
theorem deleteTask_valid_eq (s : List Task) (i : Int) (h1 : 1 ≤ i)
    (h2 : i ≤ s.length) :
    deleteTask s i = (s.take (i.toNat - 1) ++ s.drop i.toNat, DeleteResult.deleted) := by
  cases s with
  | nil => simp at h2; omega
  | cons t rest =>
    by_cases hi : i = 1
    · subst hi
      simp [deleteTask]
    · have hi2 : 2 ≤ i := by omega
      simp only [deleteTask, if_neg hi]
      rw [deleteTaskGo_pos (i - 2).toNat (t :: rest) 1 i (by omega)]
      have hlen : i ≤ (rest.length : Int) + 1 := by
        simpa using h2
      have hlt : (i - 2).toNat + 1 < (t :: rest).length := by
        simp only [List.length_cons]
        omega
      rw [if_pos hlt]
      have e1 : (i - 2).toNat + 1 = i.toNat - 1 := by omega
      have e2 : (i - 2).toNat + 2 = i.toNat := by omega
      rw [e1, e2]

/-! ### Characterization of the sscanf line parse -/

/-- A whitespace character is not a digit. -/
theorem isSpaceC_not_digit (c : Char) (h : isSpaceC c = true) :
    c.isDigit = false := by
  unfold isSpaceC at h
  simp only [Bool.or_eq_true, beq_iff_eq] at h
  rcases h with ((((h | h) | h) | h) | h) | h <;> subst h <;> decide

/-- A digit is not whitespace. -/
theorem isDigit_not_space (c : Char) (h : c.isDigit = true) :
    isSpaceC c = false := by
  cases hs : isSpaceC c with
  | false => rfl
  | true => rw [isSpaceC_not_digit c hs] at h; exact Bool.noConfusion h

/-- A digit is not a sign character. -/
theorem isDigit_ne_signs (c : Char) (h : c.isDigit = true) :
    ¬ c = '-' ∧ ¬ c = '+' :=
  ⟨fun hc => absurd (hc ▸ h) (by decide), fun hc => absurd (hc ▸ h) (by decide)⟩

/-- Unfolding scanInt once the whitespace skip is computed. -/
theorem scanInt_cons (c : Char) (r l : List Char)
    (h : l.dropWhile isSpaceC = c :: r) :
    scanInt l =
      if c = '-' then (parseDigits r).map (fun p => (-(p.1 : Int), p.2))
      else if c = '+' then (parseDigits r).map (fun p => ((p.1 : Int), p.2))
      else (parseDigits (c :: r)).map (fun p => ((p.1 : Int), p.2)) := by
  unfold scanInt
  rw [h]

/-- Unfolding sscanfLine once %d has succeeded and left a comma. -/
theorem sscanfLine_comma (line : List Char) (n : Int) (rest2 : List Char)
    (h : scanInt line = some (n, ',' :: rest2)) :
    sscanfLine line =
      if (rest2.takeWhile (fun c => c != '\n')).isEmpty then none
      else some (n, rest2.takeWhile (fun c => c != '\n')) := by
  unfold sscanfLine
  rw [h]
  rfl

/-- parseDigits on a digit run followed by a comma reads the whole run. -/
theorem parseDigits_digits_comma (ds rest : List Char) (hne : ds ≠ [])
    (hdig : ∀ c ∈ ds, c.isDigit = true) :
    parseDigits (ds ++ ',' :: rest) = some (digitsToNat ds, ',' :: rest) := by
  have ht : (ds ++ ',' :: rest).takeWhile Char.isDigit = ds := by
    rw [List.takeWhile_append_of_pos hdig, List.takeWhile_cons_of_neg (by decide),
      List.append_nil]
  have hd : (ds ++ ',' :: rest).dropWhile Char.isDigit = ',' :: rest := by
    rw [List.dropWhile_append_of_pos hdig, List.dropWhile_cons_of_neg (by decide)]
  have hemp : ((ds ++ ',' :: rest).takeWhile Char.isDigit).isEmpty = false := by
    rw [ht]
    cases ds with
    | nil => exact absurd rfl hne
    | cons a t => rfl
  unfold parseDigits
  rw [hemp, ht, hd]
  simp

/-- What a successful parseDigits says about its input. -/
theorem parseDigits_forward (l : List Char) (m : Nat) (r : List Char)
    (h : parseDigits l = some (m, r)) :
    l = l.takeWhile Char.isDigit ++ r ∧ l.takeWhile Char.isDigit ≠ [] ∧
      (∀ c ∈ l.takeWhile Char.isDigit, c.isDigit = true) ∧
      m = digitsToNat (l.takeWhile Char.isDigit) := by
  unfold parseDigits at h
  by_cases he : (l.takeWhile Char.isDigit).isEmpty
  · rw [if_pos he] at h
    exact absurd h (by simp)
  · rw [if_neg he] at h
    simp only [Option.some.injEq, Prod.mk.injEq] at h
    obtain ⟨hm, hr⟩ := h
    refine ⟨?_, ?_, fun c hc => List.mem_takeWhile_imp hc, hm.symm⟩
    · rw [← hr]
      exact (List.takeWhile_append_dropWhile Char.isDigit l).symm
    · intro hnil
      exact he (by simp [hnil])

/-- What a successful %d conversion says about its input: an all-whitespace
prefix, an optional sign, a non-empty digit run, then the rest. -/
theorem scanInt_forward (line : List Char) (n : Int) (rest : List Char)
    (h : scanInt line = some (n, rest)) :
    ∃ ws sgn ds,
      line = ws ++ sgn ++ ds ++ rest ∧
      (∀ c ∈ ws, isSpaceC c = true) ∧
      (sgn = [] ∨ sgn = ['-'] ∨ sgn = ['+']) ∧
      ds ≠ [] ∧ (∀ c ∈ ds, c.isDigit = true) ∧
      n = (if sgn = ['-'] then -(digitsToNat ds : Int) else (digitsToNat ds : Int)) := by
  unfold scanInt at h
  split at h
  · exact absurd h (by simp)
  · rename_i c rest1 heq
    have hline : line = line.takeWhile isSpaceC ++ (c :: rest1) := by
      rw [← heq, List.takeWhile_append_dropWhile]
    have hws : ∀ x ∈ line.takeWhile isSpaceC, isSpaceC x = true :=
      fun x hx => List.mem_takeWhile_imp hx
    by_cases hm : c = '-'
    · subst hm
      rw [if_pos rfl] at h
      cases hp : parseDigits rest1 with
      | none => rw [hp] at h; exact absurd h (by simp)
      | some q =>
        obtain ⟨m, r2⟩ := q
        rw [hp] at h
        simp only [Option.map_some', Option.some.injEq, Prod.mk.injEq] at h
        obtain ⟨hn, hr⟩ := h
        obtain ⟨hsplit, hne, hdig, hval⟩ := parseDigits_forward rest1 m r2 hp
        have hrest1 : rest1 = rest1.takeWhile Char.isDigit ++ rest := hr ▸ hsplit
        refine ⟨line.takeWhile isSpaceC, ['-'], rest1.takeWhile Char.isDigit,
          ?_, hws, Or.inr (Or.inl rfl), hne, hdig, ?_⟩
        · conv_lhs => rw [hline, hrest1]
          simp
        · rw [if_pos rfl, ← hn, hval]
    · rw [if_neg hm] at h
      by_cases hpl : c = '+'
      · subst hpl
        rw [if_pos rfl] at h
        cases hp : parseDigits rest1 with
        | none => rw [hp] at h; exact absurd h (by simp)
        | some q =>
          obtain ⟨m, r2⟩ := q
          rw [hp] at h
          simp only [Option.map_some', Option.some.injEq, Prod.mk.injEq] at h
          obtain ⟨hn, hr⟩ := h
          obtain ⟨hsplit, hne, hdig, hval⟩ := parseDigits_forward rest1 m r2 hp
          have hrest1 : rest1 = rest1.takeWhile Char.isDigit ++ rest := hr ▸ hsplit
          refine ⟨line.takeWhile isSpaceC, ['+'], rest1.takeWhile Char.isDigit,
            ?_, hws, Or.inr (Or.inr rfl), hne, hdig, ?_⟩
          · conv_lhs => rw [hline, hrest1]
            simp
          · rw [if_neg (by simp), ← hn, hval]
      · rw [if_neg hpl] at h
        cases hp : parseDigits (c :: rest1) with
        | none => rw [hp] at h; exact absurd h (by simp)
        | some q =>
          obtain ⟨m, r2⟩ := q
          rw [hp] at h
          simp only [Option.map_some', Option.some.injEq, Prod.mk.injEq] at h
          obtain ⟨hn, hr⟩ := h
          obtain ⟨hsplit, hne, hdig, hval⟩ := parseDigits_forward (c :: rest1) m r2 hp
          have hrest1 : c :: rest1 = (c :: rest1).takeWhile Char.isDigit ++ rest :=
            hr ▸ hsplit
          refine ⟨line.takeWhile isSpaceC, [], (c :: rest1).takeWhile Char.isDigit,
            ?_, hws, Or.inl rfl, hne, hdig, ?_⟩
          · conv_lhs => rw [hline, hrest1]
            simp
          · rw [if_neg (by simp), ← hn, hval]

/-- %d on optional whitespace, an optional sign, a digit run and a comma
computes the signed value of the run and stops at the comma. -/
theorem scanInt_backward (ws sgn ds rest : List Char)
    (hws : ∀ c ∈ ws, isSpaceC c = true)
    (hsgn : sgn = [] ∨ sgn = ['-'] ∨ sgn = ['+'])
    (hne : ds ≠ []) (hdig : ∀ c ∈ ds, c.isDigit = true) :
    scanInt (ws ++ sgn ++ ds ++ ',' :: rest)
      = some ((if sgn = ['-'] then -(digitsToNat ds : Int) else (digitsToNat ds : Int)),
          ',' :: rest) := by
  obtain ⟨d0, ds', rfl⟩ : ∃ d0 ds', ds = d0 :: ds' := by
    cases ds with
    | nil => exact absurd rfl hne
    | cons a t => exact ⟨a, t, rfl⟩
  have hd0 : d0.isDigit = true := hdig d0 (List.mem_cons_self d0 ds')
  have hpd : parseDigits ((d0 :: ds') ++ ',' :: rest)
      = some (digitsToNat (d0 :: ds'), ',' :: rest) :=
    parseDigits_digits_comma (d0 :: ds') rest hne hdig
  rcases hsgn with hsgn | hsgn | hsgn <;> subst hsgn
  · have hdrop : (ws ++ [] ++ (d0 :: ds') ++ ',' :: rest).dropWhile isSpaceC
        = d0 :: (ds' ++ ',' :: rest) := by
      simp only [List.append_nil, List.append_assoc, List.cons_append]
      rw [List.dropWhile_append_of_pos hws,
        List.dropWhile_cons_of_neg (by simp [isDigit_not_space d0 hd0])]
    rw [scanInt_cons d0 (ds' ++ ',' :: rest) _ hdrop]
    obtain ⟨hm, hp⟩ := isDigit_ne_signs d0 hd0
    rw [if_neg hm, if_neg hp]
    have : (d0 :: ds') ++ ',' :: rest = d0 :: (ds' ++ ',' :: rest) := by simp
    rw [← this, hpd]
    simp
  · have hdrop : (ws ++ ['-'] ++ (d0 :: ds') ++ ',' :: rest).dropWhile isSpaceC
        = '-' :: ((d0 :: ds') ++ ',' :: rest) := by
      simp only [List.append_assoc, List.singleton_append, List.cons_append]
      rw [List.dropWhile_append_of_pos hws, List.dropWhile_cons_of_neg (by decide)]
      simp
    rw [scanInt_cons '-' ((d0 :: ds') ++ ',' :: rest) _ hdrop]
    rw [if_pos rfl, hpd]
    simp
  · have hdrop : (ws ++ ['+'] ++ (d0 :: ds') ++ ',' :: rest).dropWhile isSpaceC
        = '+' :: ((d0 :: ds') ++ ',' :: rest) := by
      simp only [List.append_assoc, List.singleton_append, List.cons_append]
      rw [List.dropWhile_append_of_pos hws, List.dropWhile_cons_of_neg (by decide)]
      simp
    rw [scanInt_cons '+' ((d0 :: ds') ++ ',' :: rest) _ hdrop]
    rw [if_neg (by decide), if_pos rfl, hpd]
    simp

/-- The load parse accepts exactly the lines of specWellFormedLine, with
the value and description it names. -/
theorem sscanfLine_iff_spec (line : List Char) (n : Int) (d : List Char) :
    sscanfLine line = some (n, d) ↔ specWellFormedLine line n d := by
  constructor
  · intro h
    unfold sscanfLine at h
    split at h
    · exact absurd h (by simp)
    · rename_i n1 rest heq
      split at h
      · rename_i rest2
        by_cases he : (rest2.takeWhile (fun c => c != '\n')).isEmpty
        · rw [if_pos he] at h
          exact absurd h (by simp)
        · rw [if_neg he] at h
          simp only [Option.some.injEq, Prod.mk.injEq] at h
          obtain ⟨hn1, hd⟩ := h
          subst hn1
          obtain ⟨ws, sgn, ds, hline, hws, hsgn, hne, hdig, hval⟩ :=
            scanInt_forward line n1 (',' :: rest2) heq
          refine ⟨ws, sgn, ds, rest2, hline, hws, hsgn, hne, hdig, hd.symm, ?_, hval⟩
          intro hnil
          rw [← hd] at hnil
          exact he (by simp [hnil])
      · exact absurd h (by simp)
  · rintro ⟨ws, sgn, ds, rest, hline, hws, hsgn, hne, hdig, hd, hdne, hval⟩
    have hscan := scanInt_backward ws sgn ds rest hws hsgn hne hdig
    rw [hline, sscanfLine_comma _ _ _ hscan]
    have hemp : (rest.takeWhile (fun c => c != '\n')).isEmpty = false := by
      rw [← hd]
      cases hc : d with
      | nil => exact absurd hc hdne
      | cons a t => rfl
    rw [hemp]
    simp [hd, hval]

/-! ### The claims -/

/-- C1 (code bug): for an index below 1 on a non-empty store, markComplete
does not report NotFound and does not leave the store unchanged: the guard
`count < index` of the traversal is already false at count = 1, so the
FIRST task is marked complete and success is reported (the program prints
"Task 0 marked as complete" while it actually changed task 1). -/
theorem markComplete_low_index_eval :
    markComplete [{ description := ['a'], completed := false }] 0
      = ([{ description := ['a'], completed := true }], true) ∧
    ([{ description := ['a'], completed := true }] : List Task)
      ≠ [{ description := ['a'], completed := false }] :=
  ⟨rfl, by decide⟩

/-- C2 (code bug): for an index below 1 on a store of two tasks, deleteTask
does not report NotFound and does not leave the store unchanged: the guard
`count < index - 1` is already false at count = 1, so `current->next` -- the
SECOND task -- is unlinked and freed, and "Task 0 deleted" is printed. -/
theorem deleteTask_low_index_eval :
    deleteTask [{ description := ['a'], completed := false },
        { description := ['b'], completed := false }] 0
      = ([{ description := ['a'], completed := false }], DeleteResult.deleted) := rfl

/-- C3 counterexample: the store holding one task with the empty
description is reachable (add of the empty input), but save writes the line
"0,\n" whose description field is empty, sscanf then fails on %[^\n], and
load yields the empty store instead of the original one. -/
theorem roundTrip_empty_desc_cex :
    Reachable [{ description := [], completed := false }] ∧
    loadTasks [] (some (saveTasks [{ description := [], completed := false }]))
      ≠ [{ description := [], completed := false }] :=
  ⟨Reachable.add [] [] Reachable.empty, by decide⟩

/-- C3 (amended): for every store reachable by add / markComplete / delete
calls in which every description is non-empty, save followed by load into a
fresh empty store reproduces exactly the same sequence of (description,
completed) pairs in the same order. -/
theorem roundTrip_reachable (s : List Task) (h1 : Reachable s)
    (h2 : ∀ t ∈ s, t.description ≠ []) :
    loadTasks [] (some (saveTasks s)) = s :=
  saveLoad_of_inv s (fun t ht => ⟨reachable_descInv s h1 t ht, h2 t ht⟩)

/-- Witness for C3 at the reachable store of one task "a". -/
theorem roundTrip_reachable_w :
    (∀ t ∈ ([{ description := ['a'], completed := false }] : List Task),
      t.description ≠ []) ∧
    loadTasks [] (some (saveTasks [{ description := ['a'], completed := false }]))
      = [{ description := ['a'], completed := false }] :=
  ⟨by decide, roundTrip_reachable _ (Reachable.add [] ['a'] Reachable.empty) (by decide)⟩

/-- C4: add always succeeds, appends the new task (completed = false) at
the last position, grows the length by one and leaves every task already
present unchanged at its position. -/
theorem addTask_append_spec (s : List Task) (d : List Char) :
    addTask s d = s ++ [createTask d] ∧
    (addTask s d).length = s.length + 1 ∧
    (createTask d).completed = false ∧
    (addTask s d).take s.length = s ∧
    (addTask s d).getLast? = some (createTask d) := by
  refine ⟨addTask_eq_append s d, ?_, rfl, ?_, ?_⟩
  · rw [addTask_eq_append]
    simp
  · rw [addTask_eq_append]
    exact List.take_left s _
  · rw [addTask_eq_append, List.getLast?_concat]

/-- C5: deleting a valid 1-based index i reports success, shrinks the
length by one, keeps every task at a position below i in place and shifts
every task at a position above i down by one. -/
theorem deleteTask_valid_spec (s : List Task) (i : Int) (h1 : 1 ≤ i)
    (h2 : i ≤ s.length) :
    (deleteTask s i).2 = DeleteResult.deleted ∧
    (deleteTask s i).1.length + 1 = s.length ∧
    (∀ j : Nat, (j : Int) + 1 < i → (deleteTask s i).1[j]? = s[j]?) ∧
    (∀ j : Nat, i ≤ (j : Int) + 1 → (deleteTask s i).1[j]? = s[j + 1]?) := by
  rw [deleteTask_valid_eq s i h1 h2]
  have hlen : i.toNat ≤ s.length := by omega
  refine ⟨rfl, ?_, ?_, ?_⟩
  · simp only [List.length_append, List.length_take, List.length_drop]
    omega
  · intro j hj
    have hjk : j < i.toNat - 1 := by omega
    rw [List.getElem?_append_left (by simp [List.length_take]; omega)]
    exact List.getElem?_take_of_lt hjk
  · intro j hj
    have hk : i.toNat - 1 ≤ j := by omega
    rw [List.getElem?_append_right (by simp [List.length_take]; omega)]
    rw [List.getElem?_drop]
    congr 1
    simp only [List.length_take]
    omega

/-- Witness for C5 at the one-task store and index 1. -/
theorem deleteTask_valid_spec_w :
    (1 : Int) ≤ 1 ∧
    (1 : Int) ≤ ([{ description := ['a'], completed := false }] : List Task).length ∧
    ((deleteTask [{ description := ['a'], completed := false }] 1).2
        = DeleteResult.deleted ∧
      (deleteTask [{ description := ['a'], completed := false }] 1).1.length + 1
        = ([{ description := ['a'], completed := false }] : List Task).length ∧
      (∀ j : Nat, (j : Int) + 1 < 1 →
        (deleteTask [{ description := ['a'], completed := false }] 1).1[j]?
          = ([{ description := ['a'], completed := false }] : List Task)[j]?) ∧
      (∀ j : Nat, (1 : Int) ≤ (j : Int) + 1 →
        (deleteTask [{ description := ['a'], completed := false }] 1).1[j]?
          = ([{ description := ['a'], completed := false }] : List Task)[j + 1]?)) :=
  ⟨by decide, by decide, deleteTask_valid_spec _ 1 (by decide) (by decide)⟩

/-- C6: loading with no file present leaves a fresh store empty (there is
no error outcome in loadTasks at all), and loading a file of full lines
yields, in file order, exactly the tasks of the lines that parse -- a
malformed line contributes nothing, so one malformed line among two
well-formed ones yields exactly those two tasks (see the witness). -/
theorem loadTasks_missing_and_skips (head : List Task) (lines : List (List Char))
    (h : ∀ l ∈ lines, goodLine l) :
    loadTasks head none = head ∧
    loadTasks [] (some lines.flatten) = lines.filterMap chunkTask := by
  refine ⟨rfl, ?_⟩
  rw [loadTasks_some_eq, fgetsChunks_flatten lines h]
  simp

/-- Witness for C6: a malformed line followed by two well-formed lines
loads to exactly the two well-formed tasks in file order. -/
theorem loadTasks_missing_and_skips_w :
    (∀ l ∈ [['g','a','r','b','a','g','e','\n'],
        ['0',',','B','u','y',' ','m','i','l','k','\n'],
        ['1',',','P','a','y',' ','r','e','n','t','\n']], goodLine l) ∧
    (loadTasks [] none = ([] : List Task) ∧
      loadTasks [] (some ([['g','a','r','b','a','g','e','\n'],
          ['0',',','B','u','y',' ','m','i','l','k','\n'],
          ['1',',','P','a','y',' ','r','e','n','t','\n']] : List (List Char)).flatten)
        = ([['g','a','r','b','a','g','e','\n'],
          ['0',',','B','u','y',' ','m','i','l','k','\n'],
          ['1',',','P','a','y',' ','r','e','n','t','\n']] : List (List Char)).filterMap
            chunkTask) ∧
    ([['g','a','r','b','a','g','e','\n'],
        ['0',',','B','u','y',' ','m','i','l','k','\n'],
        ['1',',','P','a','y',' ','r','e','n','t','\n']] : List (List Char)).filterMap
          chunkTask
      = [{ description := ['B','u','y',' ','m','i','l','k'], completed := false },
        { description := ['P','a','y',' ','r','e','n','t'], completed := true }] :=
  ⟨by decide, loadTasks_missing_and_skips [] _ (by decide), by decide⟩

/-- C7: starting from the empty store, add "Buy milk", add "Pay rent",
markComplete 2, delete 1 ends with exactly the one task
(description "Pay rent", completed true). -/
theorem example_session_eval :
    (deleteTask (markComplete (addTaskInput (addTaskInput []
        ['B','u','y',' ','m','i','l','k']) ['P','a','y',' ','r','e','n','t']) 2).1 1).1
      = [{ description := ['P','a','y',' ','r','e','n','t'], completed := true }] := by
  decide

/-- C8: the description invariant (at most 255 characters, no newline)
holds of every task any operation puts into an invariant-respecting store:
createTask keeps the first 255 characters of its argument, the add path of
main strips at the newline first, markComplete and deleteTask reuse the
stored descriptions, and every task load inserts comes from %[^\n]
truncated by createTask. -/
theorem descInv_preserved (s : List Task) (hs : ∀ t ∈ s, descInv t)
    (input d : List Char) (i : Int) (file : Option (List Char)) :
    (createTask d).description = d.take (MAX_TASK_LEN - 1) ∧
    (∀ t ∈ addTaskInput s input, descInv t) ∧
    (∀ t ∈ (markComplete s i).1, descInv t) ∧
    (∀ t ∈ (deleteTask s i).1, descInv t) ∧
    (∀ t ∈ loadTasks s file, descInv t) := by
  refine ⟨rfl, ?_, ?_, ?_, ?_⟩
  · intro t ht
    rw [addTaskInput, addTask_eq_append] at ht
    rcases List.mem_append.mp ht with ht | ht
    · exact hs t ht
    · rw [List.mem_singleton.mp ht]
      exact createTask_stripped_descInv input
  · intro t ht
    obtain ⟨u, hu, he⟩ := markCompleteGo_desc s 1 i t ht
    obtain ⟨u1, u2⟩ := hs u hu
    exact ⟨he ▸ u1, he ▸ u2⟩
  · intro t ht
    exact hs t (deleteTask_mem s i t ht)
  · intro t ht
    cases file with
    | none => exact hs t ht
    | some content =>
      rw [loadTasks_some_eq] at ht
      rcases List.mem_append.mp ht with ht | ht
      · exact hs t ht
      · obtain ⟨chunk, hc, hck⟩ := List.mem_filterMap.mp ht
        exact chunkTask_descInv chunk t hck

/-- Witness for C8 at the empty store. -/
theorem descInv_preserved_w :
    (∀ t ∈ ([] : List Task), descInv t) ∧
    ((createTask ['x']).description = (['x'] : List Char).take (MAX_TASK_LEN - 1) ∧
      (∀ t ∈ addTaskInput [] ['x'], descInv t) ∧
      (∀ t ∈ (markComplete [] 1).1, descInv t) ∧
      (∀ t ∈ (deleteTask [] 1).1, descInv t) ∧
      (∀ t ∈ loadTasks [] (some ['1', ',', 'x', '\n']), descInv t)) :=
  ⟨by decide, descInv_preserved [] (by decide) ['x'] ['x'] 1 (some ['1', ',', 'x', '\n'])⟩

/-- C9: load never touches the tasks already in the store: the result is
the old sequence followed by the tasks parsed from the file in file order
(and a missing file adds nothing). -/
theorem loadTasks_appends (head : List Task) (content : List Char) :
    loadTasks head (some content) = head ++ (fgetsChunks content).filterMap chunkTask ∧
    loadTasks head (some content) = head ++ loadTasks [] (some content) ∧
    loadTasks head none = head := by
  refine ⟨loadTasks_some_eq head content, ?_, rfl⟩
  rw [loadTasks_some_eq, loadTasks_some_eq]
  simp

/-- C10 counterexample: the line " 1,x" starts with a space -- not with a
decimal integer, its first character being neither a digit nor a sign --
yet the load parse accepts it (%d skips leading whitespace), against the
claim's "exactly when it begins with a decimal integer". -/
theorem sscanf_leading_space_cex :
    sscanfLine [' ', '1', ',', 'x', '\n'] = some (1, ['x']) ∧
    [' ', '1', ',', 'x', '\n'].head? = some ' ' ∧
    Char.isDigit ' ' = false ∧ ' ' ≠ '-' ∧ ' ' ≠ '+' :=
  ⟨rfl, rfl, rfl, by decide, by decide⟩

/-- C10 (amended): the load parse accepts a line exactly when, after
optional leading whitespace, it carries an optionally signed multi-digit
decimal integer, immediately a comma, and at least one non-newline
character; the loaded task's completed flag is true exactly when the
integer is nonzero (so 2 or -1 count as completed). -/
theorem sscanf_characterization (line : List Char) (n : Int) (d : List Char) :
    (sscanfLine line = some (n, d) ↔ specWellFormedLine line n d) ∧
    (sscanfLine line = some (n, d) →
      loadLine [] line
        = [{ description := d.take (MAX_TASK_LEN - 1),
             completed := decide (n ≠ 0) }]) := by
  refine ⟨sscanfLine_iff_spec line n d, ?_⟩
  intro h
  rw [loadLine_eq]
  unfold chunkTask
  rw [h]
  rfl

/-- Witness for C10 at the line "-2,x": accepted, and loaded as completed
because -2 is nonzero. -/
theorem sscanf_characterization_w :
    sscanfLine ['-', '2', ',', 'x', '\n'] = some (-2, ['x']) ∧
    loadLine [] ['-', '2', ',', 'x', '\n']
      = [{ description := (['x'] : List Char).take (MAX_TASK_LEN - 1),
           completed := decide ((-2 : Int) ≠ 0) }] :=
  ⟨by decide,
    (sscanf_characterization ['-', '2', ',', 'x', '\n'] (-2) ['x']).2 (by decide)⟩

end Todo
